import Mathlib

/-!
Verification of the DebateBench core pipeline (debate runner, judge panel,
score parsing, verdict aggregation, Elo rating replay, rate limiter).

Each Python function of the repository that the claims touch is shallowly
embedded as an executable Lean definition operating on explicit data:
Python strings become `String`/`List Char`, Python dicts become association
lists with insertion-order semantics, Python ints become `Int`, Python floats
are idealized as `ℚ` (exact values) or `ℝ` (Elo arithmetic, which uses `10 ^ x`).
Platform primitives with no bearing on the stated properties (the Mersenne
Twister stream, `float()` string parsing, wall-clock UUIDs, the meta-content
regex heuristic) are taken as explicit function parameters, so every theorem
below quantifies over all of their possible behaviours.
-/

namespace DebateBench

/-! ## Python string primitives -/

/-- Python whitespace characters recognised by `str.strip()` (ASCII range). -/
def isPySpace (c : Char) : Bool :=
  c = ' ' || c = '\t' || c = '\n' || c = '\r' || c = '\x0b' || c = '\x0c'

/-- List-level `str.strip()`: drop whitespace from both ends. -/
def stripL (s : List Char) : List Char :=
  ((s.dropWhile isPySpace).reverse.dropWhile isPySpace).reverse

/-- Whether `pat` occurs at the head of `s`. -/
def headMatch : List Char → List Char → Bool
  | [], _ => true
  | _ :: _, [] => false
  | p :: ps, c :: cs => p = c && headMatch ps cs

/-- Python `pat in s` substring containment. -/
def containsL (pat : List Char) : List Char → Bool
  | [] => headMatch pat []
  | c :: cs => headMatch pat (c :: cs) || containsL pat cs

/-- Recursion core of `replace`: `fuel` dominates the length of `s`, so the
drop after a removed occurrence stays within budget (structural recursion on
`fuel` keeps the function kernel-reducible). -/
def replaceGo (pat : List Char) : Nat → List Char → List Char
  | 0, s => s
  | _ + 1, [] => []
  | fuel + 1, c :: cs =>
    if pat ≠ [] ∧ headMatch pat (c :: cs) = true then
      replaceGo pat fuel ((c :: cs).drop pat.length)
    else
      c :: replaceGo pat fuel cs

/-- Python `s.replace(pat, "")`: single left-to-right pass removing
non-overlapping occurrences of `pat`; the scan resumes after each removed
occurrence and never rescans spliced-together text. -/
def replaceL (pat : List Char) (s : List Char) : List Char :=
  replaceGo pat s.length s

/-- String-level strip. -/
def pyStrip (s : String) : String := ⟨stripL s.data⟩

/-- String-level substring containment. -/
def pyContains (s pat : String) : Bool := containsL pat.data s.data

/-- String-level single-pass replacement of `pat` by the empty string. -/
def pyRemove (s pat : String) : String := ⟨replaceL pat.data s.data⟩

/-- Lexicographic code-point comparison of character lists: Python's
string `<=` (kernel-reducible, unlike the iterator-based core order). -/
def charListLe : List Char → List Char → Bool
  | [], _ => true
  | _ :: _, [] => false
  | a :: as, b :: bs => a < b || (a = b && charListLe as bs)

/-! ## Debate runner (`debatebench/debate.py`) -/

/-- The fixed end-of-turn marker used by the debate runner. -/
def endMarker : String := "<END_OF_TURN>"

/-- `Literal["pro", "con"]` of `schema.Turn.speaker`. -/
inductive Speaker where
  | pro
  | con
deriving DecidableEq, Repr

/-- `schema.RoundConfig`: one templated turn of the debate. -/
structure RoundConfig where
  speaker : Speaker
  stage : String
  token_limit : Nat
deriving DecidableEq, Repr

/-- `schema.Turn`, restricted to the fields the debate runner validates
(timing, token-usage and cost bookkeeping are not modelled). -/
structure Turn where
  index : Nat
  speaker : Speaker
  stage : String
  content : String
deriving DecidableEq, Repr

/-- `schema.Transcript`, restricted to the fields the pipeline reads. -/
structure Transcript where
  debate_id : String
  pro_model_id : String
  con_model_id : String
  turns : List Turn
deriving DecidableEq, Repr

/-- `debate.EmptyResponseError`: the typed error carrying model id, stage
and side. -/
structure EmptyResponseError where
  model_id : String
  stage : String
  speaker : Speaker
deriving DecidableEq, Repr

/-- `debate._strip_end_marker`: remove marker occurrences (single pass) and
strip whitespace. -/
def _strip_end_marker (text : String) : String :=
  pyStrip (pyRemove text endMarker)

/-- One iteration of `run_debate`'s validation loop body (lines 117-137 of
`debate.py`): given the raw adapter response, return `some content_clean`
when the loop would `break` with that cleaned content, `none` when it would
retry.  `looksMeta` abstracts the `_looks_like_meta` regex heuristic. -/
def validateAttempt (looksMeta : String → Bool) (raw : String) : Option String :=
  if pyStrip raw = "" then none
  else if !pyContains raw endMarker then none
  else if looksMeta (_strip_end_marker raw) then none
  else some (_strip_end_marker raw)

/-- The bounded retry loop of `run_debate`: try attempts `attempt`,
`attempt+1`, … while `fuel` lasts, returning the first accepted content. -/
def attemptLoop (looksMeta : String → Bool) (gen : Nat → String) :
    Nat → Nat → Option String
  | _, 0 => none
  | attempt, fuel + 1 =>
    match validateAttempt looksMeta (gen attempt) with
    | some out => some out
    | none => attemptLoop looksMeta gen (attempt + 1) fuel

/-- `max_attempts` of `run_debate`. -/
def maxAttempts : Nat := 5

/-- Adapter id for a speaking side, from the `adapter_map`. -/
def speakerId (proId conId : String) : Speaker → String
  | .pro => proId
  | .con => conId

/-- The round loop of `run_debate`.  `gen r k` is the content returned by the
speaking adapter of round `r` on attempt `k` (prompt construction and the
token-usage bookkeeping do not influence validation and are not modelled).
After the retry loop, an empty surviving content raises
`EmptyResponseError`, mirroring lines 138-139. -/
def runRounds (looksMeta : String → Bool) (gen : Nat → Nat → String)
    (proId conId : String) :
    List RoundConfig → Nat → Except EmptyResponseError (List Turn)
  | [], _ => .ok []
  | rc :: rest, idx =>
    match attemptLoop looksMeta (gen idx) 0 maxAttempts with
    | some content =>
      if content = "" then
        .error ⟨speakerId proId conId rc.speaker, rc.stage, rc.speaker⟩
      else do
        let turns ← runRounds looksMeta gen proId conId rest (idx + 1)
        .ok (⟨idx, rc.speaker, rc.stage, content⟩ :: turns)
    | none =>
      .error ⟨speakerId proId conId rc.speaker, rc.stage, rc.speaker⟩

/-- `debate.run_debate`: orchestrate one transcript.  The random
`uuid.uuid4()` debate id is passed in as `debateId`. -/
def run_debate (looksMeta : String → Bool) (gen : Nat → Nat → String)
    (rounds : List RoundConfig) (proId conId debateId : String) :
    Except EmptyResponseError Transcript := do
  let turns ← runRounds looksMeta gen proId conId rounds 0
  .ok ⟨debateId, proId, conId, turns⟩

/-! ## Judge score parsing (`debatebench/judge.py`, `_parse_json_scores`) -/

/-- A Python value as delivered by `json.loads` / `yaml.safe_load`.
Floats are idealized as exact rationals; JSON booleans are Python `bool`,
which `isinstance(·, int)` accepts. -/
inductive PyVal where
  | vInt : Int → PyVal
  | vFloat : ℚ → PyVal
  | vStr : String → PyVal
  | vBool : Bool → PyVal
  | vNone : PyVal
  | vDict : List (String × PyVal) → PyVal
  | vList : List PyVal → PyVal

/-- Python truthiness of a value. -/
def PyVal.truthy : PyVal → Bool
  | vInt n => decide (n ≠ 0)
  | vFloat q => decide (q ≠ 0)
  | vStr s => decide (s ≠ "")
  | vBool b => b
  | vNone => false
  | vDict m => !m.isEmpty
  | vList l => !l.isEmpty

/-- Python `a or b`. -/
def pyOr (a b : PyVal) : PyVal := if a.truthy then a else b

/-- Python `v is None`. -/
def PyVal.isNone : PyVal → Bool
  | .vNone => true
  | _ => false

/-- Python `d.get(k)` on a dict rendered as an association list
(`None` when the key is absent). -/
def dGet (m : List (String × PyVal)) (k : String) : PyVal :=
  (m.lookup k).getD .vNone

/-- Python `v.get(k)` on an arbitrary value: an `AttributeError` escapes the
parser when `v` is not a dict. -/
def pyAttrGet (v : PyVal) (k : String) : Except String PyVal :=
  match v with
  | .vDict m => .ok (dGet m k)
  | _ => .error "AttributeError: no attribute get"

/-- Python `str.lower()` character-wise (the ASCII-faithful case; dimension
ids are plain config strings). -/
def pyLower (s : String) : String := ⟨s.data.map Char.toLower⟩

/-- Last-occurrence lookup, matching a Python dict comprehension where later
keys overwrite earlier ones. -/
def lookupLast (m : List (String × PyVal)) (k : String) : Option PyVal :=
  m.reverse.lookup k

/-- The dimension lookup of `normalize_side`: the exact key first, then the
case-insensitive map `{k.lower(): v for k, v in side_scores.items()}`. -/
def findScore (m : List (String × PyVal)) (dim : String) : Option PyVal :=
  match m.lookup dim with
  | some v => some v
  | none => lookupLast (m.map (fun p => (pyLower p.1, p.2))) (pyLower dim)

/-- Python `round()` (used as `int(round(v))`): round half to even. -/
def pyRound (q : ℚ) : Int :=
  let f := ⌊q⌋
  let frac := q - f
  if frac < 1 / 2 then f
  else if 1 / 2 < frac then f + 1
  else if f % 2 = 0 then f else f + 1

/-- The type-coercion chain of `normalize_side`: strings go through
`float(·)` (abstracted as the `parseFloat` parameter, `none` = `ValueError`),
floats are rounded, bools count as ints, anything else falls back to
`scale_min`. -/
def coerceVal (parseFloat : String → Option ℚ) (scale_min : Int) : PyVal → Int
  | .vStr s =>
    match parseFloat s with
    | some q => pyRound q
    | none => scale_min
  | .vFloat q => pyRound q
  | .vInt n => n
  | .vBool b => if b then 1 else 0
  | _ => scale_min

/-- The sequential clamping of `normalize_side`: lift to `scale_min` first,
then cut down to `scale_max`. -/
def clampSeq (scale_min scale_max v : Int) : Int :=
  let v1 := if v < scale_min then scale_min else v
  if v1 > scale_max then scale_max else v1

/-- `normalize_side` of `_parse_json_scores`: resolve every configured
dimension — `val` stays `None` when the key is absent from both the exact
and case-insensitive lookups — raise on `val is None`, then coerce and
clamp. -/
def normalize_side (parseFloat : String → Option ℚ)
    (side_scores : List (String × PyVal)) (dim_ids : List String)
    (scale_min scale_max : Int) : Except String (List (String × Int)) :=
  match dim_ids with
  | [] => .ok []
  | dim :: rest =>
    let val := (findScore side_scores dim).getD .vNone
    if val.isNone then .error ("Missing score for dimension " ++ dim)
    else do
      let out ← normalize_side parseFloat side_scores rest scale_min scale_max
      .ok ((dim, clampSeq scale_min scale_max (coerceVal parseFloat scale_min val)) :: out)

/-- `judge._parse_json_scores`: navigate `payload["scores"]["pro"/"con"]`
with the `or` fallbacks of the source, require dicts on both sides, then
normalize each side. -/
def _parse_json_scores (parseFloat : String → Option ℚ) (payload : PyVal)
    (dim_ids : List String) (scale_min scale_max : Int) :
    Except String (List (String × Int) × List (String × Int)) :=
  match payload with
  | .vDict m => do
    let scores := pyOr (dGet m "scores") (.vDict [])
    let sPro ← pyAttrGet scores "pro"
    let pro_scores := pyOr sPro (dGet m "pro")
    let sCon ← pyAttrGet scores "con"
    let con_scores := pyOr sCon (dGet m "con")
    match pro_scores, con_scores with
    | .vDict pm, .vDict cm => do
      let p ← normalize_side parseFloat pm dim_ids scale_min scale_max
      let c ← normalize_side parseFloat cm dim_ids scale_min scale_max
      .ok (p, c)
    | _, _ => .error "Missing scores for pro/con."
  | _ => .error "Judge response is not a JSON object."

/-! ## Panel aggregation (`judge.aggregate_panel`) -/

/-- `Literal["pro", "con", "tie"]` of `schema.JudgeResult.winner`. -/
inductive Verdict where
  | pro
  | con
  | tie
deriving DecidableEq, Repr

/-- `schema.JudgeResult`, restricted to the fields aggregation reads
(latency / token / cost bookkeeping is not modelled). -/
structure JudgeResult where
  judge_id : String
  pro : List (String × Int)
  con : List (String × Int)
  winner : Verdict
deriving DecidableEq, Repr

/-- Python `scores.get(dim, 0)`. -/
def scoreGet (m : List (String × Int)) (dim : String) : Int :=
  (m.lookup dim).getD 0

/-- The tally `vote_counts[w]` of `aggregate_panel` for one verdict. -/
def voteCount (results : List JudgeResult) (w : Verdict) : Nat :=
  (results.filter (fun r => r.winner = w)).length

/-- The union of all dimension ids reported by any judge for either side,
in first-occurrence order (Python builds a `set`, whose iteration order is
abstracted here; every property stated below is order-independent). -/
def dimKeys (results : List JudgeResult) : List String :=
  (results.flatMap (fun r => r.pro.map Prod.fst ++ r.con.map Prod.fst)).dedup

/-- The per-dimension mean of `aggregate_panel`: total over the whole panel
(absent dimensions contribute 0) divided by the full panel size. -/
def meanScore (results : List JudgeResult) (proj : JudgeResult → List (String × Int))
    (dim : String) : ℚ :=
  ((results.map (fun r => scoreGet (proj r) dim)).sum : ℚ) / (results.length : ℚ)

/-- `schema.AggregatedResult` with idealized-rational means. -/
structure AggregatedResult where
  winner : Verdict
  mean_pro : List (String × ℚ)
  mean_con : List (String × ℚ)
deriving DecidableEq, Repr

/-- `judge.aggregate_panel`: head-to-head vote between the pro and con
tallies (equality falls to tie), then per-dimension means. -/
def aggregate_panel (results : List JudgeResult) : AggregatedResult :=
  { winner :=
      if voteCount results .pro > voteCount results .con then .pro
      else if voteCount results .con > voteCount results .pro then .con
      else .tie
    mean_pro := (dimKeys results).map (fun d => (d, meanScore results (fun r => r.pro) d))
    mean_con := (dimKeys results).map (fun d => (d, meanScore results (fun r => r.con) d)) }

/-! ## Judge panel (`judge.run_single_judge`, `judge.run_judge_panel`) -/

/-- A candidate judge adapter.  `parsed` abstracts the outcome of the whole
request/parse pipeline of `run_single_judge` (two HTTP attempts, JSON
extraction, `_parse_json_scores`, the all-minimum degenerate-output
rejection): the final usable `(pro_scores, con_scores)` pair, or `none`
when every attempt failed. -/
structure JudgeAdapter where
  id : String
  parsed : Option (List (String × Int) × List (String × Int))

/-- Winner derivation of `run_single_judge` (lines 274-282): compare the
mean dimension scores of the two sides. -/
def deriveWinner (proS conS : List (String × Int)) : Verdict :=
  let pro_avg : ℚ := ((proS.map Prod.snd).sum : ℚ) / (proS.length : ℚ)
  let con_avg : ℚ := ((conS.map Prod.snd).sum : ℚ) / (conS.length : ℚ)
  if pro_avg > con_avg then .pro
  else if con_avg > pro_avg then .con
  else .tie

/-- `judge.run_single_judge` after the request/parse pipeline: empty score
dicts raise (`if not pro_scores or not con_scores`), otherwise the
`JudgeResult` is assembled with `judge_id := adapter.config.id` and the
derived winner. -/
def run_single_judge (a : JudgeAdapter) : Option JudgeResult :=
  match a.parsed with
  | none => none
  | some (p, c) =>
    if p.isEmpty || c.isEmpty then none
    else some ⟨a.id, p, c, deriveWinner p c⟩

/-- Insertion-ordered update of an association list, as on a Python dict:
overwrite in place when the key exists, append otherwise. -/
def alSet {α : Type} (m : List (String × α)) (k : String) (v : α) :
    List (String × α) :=
  match m with
  | [] => [(k, v)]
  | (k', v') :: rest => if k' = k then (k, v) :: rest else (k', v') :: alSet rest k v

/-- Lookup with default, as `d.get(k, 0)`. -/
def alGetD {α : Type} (m : List (String × α)) (k : String) (d : α) : α :=
  (m.lookup k).getD d

/-- The sort key of `run_judge_panel`: `(usage count, random tie-break, id)`.
The Mersenne-Twister draws of `random.Random(seed)` are abstracted as the
stream `rng`, consumed once per candidate in list order by `sorted`;
without a seed the tie-break is the constant `0.0`. -/
def panelSortKey (usage : Option (List (String × Nat))) (seeded : Bool)
    (rng : Nat → ℚ) (i : Nat) (a : JudgeAdapter) : Nat × ℚ × String :=
  (match usage with
   | some u => alGetD u a.id 0
   | none => 0,
   if seeded then rng i else 0,
   a.id)

/-- Boolean comparison of sort keys (lexicographic tuple order, as in
Python). -/
def keyLe (x y : Nat × ℚ × String) : Bool :=
  decide (x.1 < y.1) ||
    (decide (x.1 = y.1) &&
      (decide (x.2.1 < y.2.1) ||
        (decide (x.2.1 = y.2.1) && charListLe x.2.2.data y.2.2.data)))

/-- The sorted candidate queue of `run_judge_panel` (a stable sort, like
Python's). -/
def panelQueue (candidates : List JudgeAdapter)
    (usage : Option (List (String × Nat))) (seeded : Bool) (rng : Nat → ℚ) :
    List JudgeAdapter :=
  ((candidates.enum.map (fun p => (panelSortKey usage seeded rng p.1 p.2, p.2))).mergeSort
      (fun x y => keyLe x.1 y.1)).map Prod.snd

/-- The candidate loop of `run_judge_panel`: skip ids already tried, drop
failing judges, count usage on success, and stop as soon as `expected`
results are collected (the length test sits at the end of the loop body). -/
def panelGo (expected : Nat) :
    List JudgeAdapter → List String → List JudgeResult →
    Option (List (String × Nat)) →
    List JudgeResult × Option (List (String × Nat))
  | [], _, acc, usage => (acc, usage)
  | a :: rest, tried, acc, usage =>
    if a.id ∈ tried then panelGo expected rest tried acc usage
    else
      match run_single_judge a with
      | some r =>
        let acc' := acc ++ [r]
        let usage' := usage.map (fun u => alSet u a.id (alGetD u a.id 0 + 1))
        if expected ≤ acc'.length then (acc', usage')
        else panelGo expected rest (a.id :: tried) acc' usage'
      | none => panelGo expected rest (a.id :: tried) acc usage

/-- `judge.run_judge_panel`: sort the candidates, walk the queue until
`expected` valid results are collected, raise when the pool is exhausted
short of the target, aggregate otherwise. -/
def run_judge_panel (candidates : List JudgeAdapter) (expected : Nat)
    (usage : Option (List (String × Nat))) (seeded : Bool) (rng : Nat → ℚ) :
    Except String (List JudgeResult × AggregatedResult ×
      Option (List (String × Nat))) :=
  let queue := panelQueue candidates usage seeded rng
  let (results, usage') := panelGo expected queue [] [] usage
  if results.length < expected then .error "Collected too few judges."
  else .ok (results, aggregate_panel results, usage')

/-! ## Elo rating (`debatebench/rating.py`) -/

/-- `rating.expected_score`: the logistic expectation
`1 / (1 + 10 ^ ((r_b - r_a) / 400))`, over the reals. -/
noncomputable def expected_score (r_a r_b : ℝ) : ℝ :=
  1 / (1 + (10 : ℝ) ^ ((r_b - r_a) / 400))

/-- `rating.update_elo`: move both ratings by the same delta in opposite
directions. -/
noncomputable def update_elo (r_a r_b score_a k : ℝ) : ℝ × ℝ :=
  let exp_a := expected_score r_a r_b
  let delta_a := k * (score_a - exp_a)
  (r_a + delta_a, r_b - delta_a)

/-- `schema.EloConfig`. -/
structure EloConfig where
  initial_rating : ℝ
  k_factor : ℝ

/-- `schema.DebateRecord`, restricted to the fields the rating replay reads;
`created_at` datetimes are modelled as integer timestamps. -/
structure DebateRecord where
  transcript : Transcript
  judges : List JudgeResult
  aggregate : AggregatedResult
  created_at : Int

/-- `schema.RatingEntry`. -/
structure RatingEntry where
  rating : ℝ
  games_played : Nat
  dimension_avgs : List (String × ℚ)

/-- `schema.RatingsFile`; `models` keeps Python-dict insertion order. -/
structure RatingsFile where
  benchmark_version : String
  rubric_version : String
  elo : EloConfig
  models : List (String × RatingEntry)

/-- The sort key comparison of `recompute_ratings`: lexicographic on
`(created_at, transcript.debate_id)`. -/
def recordLe (a b : DebateRecord) : Bool :=
  decide (a.created_at < b.created_at) ||
    (decide (a.created_at = b.created_at) &&
      decide (a.transcript.debate_id ≤ b.transcript.debate_id))

/-- The replay key `(created_at, transcript.debate_id)` that `recordLe`
compares lexicographically. -/
def recordKey (d : DebateRecord) : Int × String :=
  (d.created_at, d.transcript.debate_id)

/-- The mutable replay state of `recompute_ratings`; every `defaultdict` is
an insertion-ordered association list, and a read of a missing key inserts
the default, as in Python. -/
structure RatingState where
  ratings : List (String × ℝ)
  games : List (String × Nat)
  dimSums : List (String × List (String × ℚ))
  dimCounts : List (String × List (String × Nat))

/-- Read of a `defaultdict`: insert the default for a missing key. -/
def alTouch {α : Type} (m : List (String × α)) (k : String) (d : α) :
    List (String × α) :=
  if (m.lookup k).isSome then m else m ++ [(k, d)]

/-- The `dim_sums[side][dim] += score; dim_counts[side][dim] += 1`
accumulation for one reported dimension mean. -/
def accumDim (sums : List (String × List (String × ℚ)))
    (counts : List (String × List (String × Nat))) (model dim : String)
    (score : ℚ) :
    List (String × List (String × ℚ)) × List (String × List (String × Nat)) :=
  let inner := alGetD (alTouch sums model []) model []
  let sums' := alSet (alTouch sums model []) model
    (alSet (alTouch inner dim 0) dim (alGetD inner dim 0 + score))
  let cinner := alGetD (alTouch counts model []) model []
  let counts' := alSet (alTouch counts model []) model
    (alSet (alTouch cinner dim 0) dim (alGetD cinner dim 0 + 1))
  (sums', counts')

/-- One record of the replay loop of `recompute_ratings` (lines 33-57). -/
noncomputable def rateStep (cfg : EloConfig) (st : RatingState)
    (record : DebateRecord) : RatingState :=
  let pro := record.transcript.pro_model_id
  let con := record.transcript.con_model_id
  let score_pro : ℝ :=
    match record.aggregate.winner with
    | .pro => 1
    | .con => 0
    | .tie => 0.5
  let ratings := alTouch (alTouch st.ratings pro cfg.initial_rating) con cfg.initial_rating
  let r_pro := alGetD ratings pro cfg.initial_rating
  let r_con := alGetD ratings con cfg.initial_rating
  let upd := update_elo r_pro r_con score_pro cfg.k_factor
  let ratings := alSet (alSet ratings pro upd.1) con upd.2
  let games := alSet (alTouch st.games pro 0) pro (alGetD st.games pro 0 + 1)
  let games := alSet (alTouch games con 0) con (alGetD games con 0 + 1)
  let acc := record.aggregate.mean_pro.foldl
    (fun (sc : _ × _) p => accumDim sc.1 sc.2 pro p.1 p.2)
    (st.dimSums, st.dimCounts)
  let acc := record.aggregate.mean_con.foldl
    (fun (sc : _ × _) p => accumDim sc.1 sc.2 con p.1 p.2) acc
  ⟨ratings, games, acc.1, acc.2⟩

/-- The `model_entries` assembly of `recompute_ratings` (lines 59-70):
walk `ratings` in insertion order, averaging each accumulated dimension. -/
def assembleEntries (st : RatingState) : List (String × RatingEntry) :=
  st.ratings.map (fun p =>
    let sums := alGetD st.dimSums p.1 []
    let counts := alGetD st.dimCounts p.1 []
    (p.1,
      { rating := p.2
        games_played := alGetD st.games p.1 0
        dimension_avgs :=
          (sums.filterMap (fun q =>
            if 0 < alGetD counts q.1 0 then
              some (q.1, q.2 / (Nat.cast (alGetD counts q.1 0) : ℚ))
            else none)) }))

/-- `rating.recompute_ratings`: sort all records by
`(created_at, debate_id)`, replay them through the Elo update, and emit the
ratings table. -/
noncomputable def recompute_ratings (debates : List DebateRecord)
    (benchmark_version rubric_version : String) (elo_cfg : EloConfig) :
    RatingsFile :=
  let debates_sorted := debates.mergeSort recordLe
  let final := debates_sorted.foldl (rateStep elo_cfg) ⟨[], [], [], []⟩
  { benchmark_version := benchmark_version
    rubric_version := rubric_version
    elo := elo_cfg
    models := assembleEntries final }

/-! ## Rate limiter (`debatebench/models.py`, `_RateLimiter`)

The limiter's mutable fields (`tokens`, `updated`) are only touched under
`self.lock`, so every concurrent execution linearizes into a sequence of
lock-held loop iterations, each of which refills the bucket at the current
monotonic time and then either takes a token (the caller's `acquire`
returns) or leaves the bucket unchanged (the caller sleeps and retries).
That serialized sequence is embedded below as a trace of timestamps, with
`time.monotonic()` idealized as an arbitrary nondecreasing rational clock. -/

/-- The mutable state of `_RateLimiter`. -/
structure LimiterState where
  tokens : ℚ
  updated : ℚ
deriving DecidableEq, Repr

/-- The bucket capacity `max(1, max_rpm)`, as a rational. -/
def capQ (max_rpm : Int) : ℚ := max 1 (max_rpm : ℚ)

/-- The continuous refill at the top of each `acquire` loop iteration. -/
def refill (cap rate : ℚ) (s : LimiterState) (now : ℚ) : LimiterState :=
  if 0 < now - s.updated then
    ⟨min cap (s.tokens + (now - s.updated) * rate), now⟩
  else s

/-- One lock-held iteration of `acquire` at time `now`: refill, then grant a
token when at least one is available (`true` = the caller's `acquire`
returns). -/
def tryStep (cap rate : ℚ) (s : LimiterState) (now : ℚ) : LimiterState × Bool :=
  let s' := refill cap rate s now
  if 1 ≤ s'.tokens then (⟨s'.tokens - 1, s'.updated⟩, true) else (s', false)

/-- Run a trace of lock acquisitions, recording each iteration's time and
whether it was granted. -/
def runTrace (cap rate : ℚ) (s : LimiterState) :
    List ℚ → List (ℚ × Bool) × LimiterState
  | [] => ([], s)
  | t :: ts =>
    let step := tryStep cap rate s t
    let rest := runTrace cap rate step.1 ts
    ((t, step.2) :: rest.1, rest.2)

/-- The event trace of a `_RateLimiter(max_rpm)` constructed at time `t0`
(full bucket, `refill_rate = max(1, max_rpm) / 60`). -/
def limiterRun (max_rpm : Int) (t0 : ℚ) (ts : List ℚ) : List (ℚ × Bool) :=
  (runTrace (capQ max_rpm) (capQ max_rpm / 60) ⟨capQ max_rpm, t0⟩ ts).1

/-- Number of granted acquisitions whose timestamp falls in the closed
60-second window starting at `T`. -/
def grantsIn (T : ℚ) (evs : List (ℚ × Bool)) : Nat :=
  (evs.filter (fun e => decide (T ≤ e.1) && decide (e.1 ≤ T + 60) && e.2)).length

/-- Number of granted acquisitions in a trace, irrespective of time. -/
def grantsCount (evs : List (ℚ × Bool)) : Nat :=
  (evs.filter (fun e => e.2)).length

/-! ## Concrete instances used by witnesses and counterexamples -/

/-- A meta-content predicate that never fires.  On every concrete content
below, the source heuristic `_looks_like_meta` also returns `False`: none of
its planning phrases (`i am going to`, `i will`, `my plan`, …) occurs. -/
def metaOff : String → Bool := fun _ => false

/-- A single-round schedule. -/
def oneRound : List RoundConfig := [⟨.pro, "opening", 4096⟩]

/-- An adapter behaviour splicing the marker out of two halves: the single
occurrence satisfies the validation check, but removing it glues a fresh
marker together. -/
def spliceGen : Nat → Nat → String := fun _ _ => "<END_OF_<END_OF_TURN>TURN>"

/-- An adapter behaviour that always answers without the end marker. -/
def noMarkerGen : Nat → Nat → String := fun _ _ => "No marker here."

/-- An adapter behaviour with a well-formed reply. -/
def politeGen : Nat → Nat → String := fun _ _ => "Hi <END_OF_TURN>  "

/-- An adapter behaviour that always answers the empty string. -/
def emptyGen : Nat → Nat → String := fun _ _ => ""

/-- A judge candidate whose pipeline yields usable scores. -/
def goodAdapter : JudgeAdapter := ⟨"j1", some ([("logic", 7)], [("logic", 5)])⟩

/-- A second usable judge candidate with a distinct id. -/
def goodAdapter2 : JudgeAdapter := ⟨"j2", some ([("logic", 4)], [("logic", 9)])⟩

/-- A trivial tie-break stream. -/
def rng0 : Nat → ℚ := fun _ => 0

/-- Judge results voting pro / pro / con with simple score tables. -/
def jProA : JudgeResult := ⟨"jA", [("logic", 7)], [("logic", 5)], .pro⟩

/-- Second pro vote; reports a dimension `style` the others omit. -/
def jProB : JudgeResult := ⟨"jB", [("logic", 6), ("style", 7)], [("logic", 4)], .pro⟩

/-- A con vote. -/
def jConC : JudgeResult := ⟨"jC", [("logic", 2)], [("logic", 9)], .con⟩

/-- A `float()` model accepting just the decimal literals used in the
witness payload. -/
def pf0 : String → Option ℚ := fun s => if s = "8.5" then some (17 / 2) else none

/-- A well-formed judge payload: exact and case-variant keys, a string
score and an out-of-range score. -/
def payload0 : PyVal := .vDict [("scores", .vDict [
  ("pro", .vDict [("logic", .vInt 7), ("style", .vStr "8.5")]),
  ("con", .vDict [("Logic", .vInt 3), ("style", .vInt 11)])])]

/-- A payload whose pro side omits the `style` dimension. -/
def payloadMissing : PyVal := .vDict [("scores", .vDict [
  ("pro", .vDict [("logic", .vInt 7)]),
  ("con", .vDict [("logic", .vInt 3), ("style", .vInt 5)])])]

/-- Elo constants for the rating witness. -/
noncomputable def elo0 : EloConfig := ⟨400, 32⟩

/-- First sample debate record for the rating witness. -/
def recA : DebateRecord :=
  ⟨⟨"dA", "m1", "m2", []⟩, [], ⟨.pro, [("logic", 6)], [("logic", 5)]⟩, 0⟩

/-- Second sample debate record for the rating witness. -/
def recB : DebateRecord :=
  ⟨⟨"dB", "m2", "m1", []⟩, [], ⟨.con, [("logic", 3)], [("logic", 4)]⟩, 1⟩

/-! ## Shared helper lemmas -/

/-- An accepted validation attempt originates from a response containing the
marker, and returns exactly the single-pass-stripped response. -/
theorem validateAttempt_some_iff (lm : String → Bool) (raw out : String)
    (h : validateAttempt lm raw = some out) :
    pyContains raw endMarker = true ∧ out = _strip_end_marker raw := by
  unfold validateAttempt at h
  split_ifs at h with h1 h2 h3 <;> simp_all

/-- A successful retry loop pinpoints the accepted attempt. -/
theorem attemptLoop_some (lm : String → Bool) (g : Nat → String) :
    ∀ fuel a out, attemptLoop lm g a fuel = some out →
      ∃ k, a ≤ k ∧ k < a + fuel ∧ validateAttempt lm (g k) = some out := by
  intro fuel
  induction fuel with
  | zero => intro a out h; cases h
  | succ n ih =>
    intro a out h
    unfold attemptLoop at h
    cases hv : validateAttempt lm (g a) with
    | some v => rw [hv] at h; cases h; exact ⟨a, le_refl a, by omega, hv⟩
    | none =>
      rw [hv] at h
      obtain ⟨k, hk1, hk2, hk3⟩ := ih (a + 1) out h
      exact ⟨k, by omega, by omega, hk3⟩

/-! ## C6: Elo updates are zero-sum -/

/-- C6: for every pair of ratings, actual score and k-factor, a single
`update_elo` call gains one side exactly what the other loses. -/
theorem update_elo_zero_sum (r_a r_b score_a k : ℝ) :
    (update_elo r_a r_b score_a k).1 - r_a =
      -((update_elo r_a r_b score_a k).2 - r_b) := by
  simp only [update_elo]
  ring

/-! ## C2: panel winner is the pro/con vote comparison -/

/-- C2: on any non-empty panel, `aggregate_panel` names pro the winner
exactly when pro's votes strictly exceed con's, names con symmetrically,
and declares a tie exactly on equal vote counts — so `["pro","pro","con"]`
aggregates to pro and `["pro","con"]` to tie. -/
theorem aggregate_panel_majority (results : List JudgeResult)
    (hne : results ≠ []) :
    ((aggregate_panel results).winner = .pro ↔
        voteCount results .con < voteCount results .pro) ∧
    ((aggregate_panel results).winner = .con ↔
        voteCount results .pro < voteCount results .con) ∧
    ((aggregate_panel results).winner = .tie ↔
        voteCount results .pro = voteCount results .con) := by
  refine ⟨?_, ?_, ?_⟩ <;>
    simp only [aggregate_panel] <;>
    split_ifs with h1 h2 <;>
    simp_all <;> omega

/-- Witness for C2 at the two panels named by the claim. -/
theorem aggregate_panel_majority_witness :
    (aggregate_panel [jProA, jProB, jConC]).winner = .pro ∧
    (aggregate_panel [jProA, jConC]).winner = .tie :=
  ⟨(aggregate_panel_majority [jProA, jProB, jConC] (by simp)).1.mpr (by decide),
   (aggregate_panel_majority [jProA, jConC] (by simp)).2.2.mpr (by decide)⟩

/-! ## C5: a marker-less response is rejected, not marker-appended -/

/-- C5 counterexample: a non-empty response without the end-of-turn marker
is never accepted with the marker appended — the validation loop rejects it
on all five attempts and `run_debate` raises `EmptyResponseError`. -/
theorem run_debate_missing_marker_counterexample :
    run_debate metaOff noMarkerGen oneRound "m_pro" "m_con" "d0" =
      .error ⟨"m_pro", "opening", .pro⟩ := by rfl

/-- C5 amended: inside `run_debate`'s validation, a non-empty response that
lacks the marker is rejected (the loop retries); an accepted attempt always
came from a response containing the marker, and stores it with the marker
stripped. -/
theorem validateAttempt_marker_policy (lm : String → Bool) (raw : String) :
    (pyStrip raw ≠ "" → pyContains raw endMarker = false →
      validateAttempt lm raw = none) ∧
    (∀ out, validateAttempt lm raw = some out →
      pyContains raw endMarker = true ∧ out = _strip_end_marker raw) := by
  constructor
  · intro h1 h2
    unfold validateAttempt
    rw [if_neg h1, h2]
    simp
  · intro out h
    exact validateAttempt_some_iff lm raw out h

/-- Witness for C5's amended statement: the marker-less reply is rejected,
and the well-formed reply is stored stripped. -/
theorem validateAttempt_marker_policy_witness :
    validateAttempt metaOff "No marker here." = none ∧
    (pyContains "Hi <END_OF_TURN>  " endMarker = true ∧
      "Hi" = _strip_end_marker "Hi <END_OF_TURN>  ") :=
  ⟨(validateAttempt_marker_policy metaOff "No marker here.").1
      (by decide) (by decide),
   (validateAttempt_marker_policy metaOff "Hi <END_OF_TURN>  ").2 "Hi"
      (by decide)⟩

/-! ## C3: stored turn content -/

/-- C3 counterexample: a response whose marker removal splices a fresh
marker together passes validation, and `run_debate` records a turn whose
content still contains the raw end-of-turn marker. -/
theorem run_debate_marker_counterexample :
    run_debate metaOff spliceGen oneRound "m_pro" "m_con" "d0" =
      .ok ⟨"d0", "m_pro", "m_con", [⟨0, .pro, "opening", "<END_OF_TURN>"⟩]⟩ ∧
    pyContains "<END_OF_TURN>" endMarker = true :=
  ⟨rfl, rfl⟩

/-- Every turn of a successful `runRounds` has non-empty content equal to
the single-pass marker-stripped text of one of that round's responses. -/
theorem runRounds_ok_content (lm : String → Bool) (gen : Nat → Nat → String)
    (pid cid : String) (rounds : List RoundConfig) :
    ∀ idx turns, runRounds lm gen pid cid rounds idx = .ok turns →
      ∀ t ∈ turns, t.content ≠ "" ∧
        ∃ k, k < maxAttempts ∧ t.content = _strip_end_marker (gen t.index k) := by
  induction rounds with
  | nil =>
    intro idx turns h t ht
    simp only [runRounds] at h
    cases h
    simp at ht
  | cons rc rest ih =>
    intro idx turns h t ht
    simp only [runRounds] at h
    cases hl : attemptLoop lm (gen idx) 0 maxAttempts with
    | none => rw [hl] at h; cases h
    | some content =>
      rw [hl] at h
      dsimp only at h
      by_cases hc : content = ""
      · rw [if_pos hc] at h; cases h
      · rw [if_neg hc] at h
        cases hr : runRounds lm gen pid cid rest (idx + 1) with
        | error e => rw [hr] at h; cases h
        | ok turns' =>
          rw [hr] at h
          simp only [bind, Except.bind] at h
          cases h
          rcases List.mem_cons.1 ht with rfl | htail
          · refine ⟨hc, ?_⟩
            obtain ⟨k, _, hk2, hk3⟩ := attemptLoop_some lm (gen idx) maxAttempts 0 content hl
            exact ⟨k, by omega, (validateAttempt_some_iff lm (gen idx k) content hk3).2⟩
          · exact ih (idx + 1) turns' hr t htail

/-- C3 amended: every turn recorded by `run_debate` has non-empty content,
obtained from some response of its round by the single left-to-right
marker-removal pass (which can leave a spliced marker, as the
counterexample shows); and a round whose five validation attempts all end
with empty content makes `run_debate` raise `EmptyResponseError` carrying
the offending model id, stage and side instead of recording a turn. -/
theorem run_debate_content_policy :
    (∀ (lm : String → Bool) (gen : Nat → Nat → String) rounds pid cid did tr,
        run_debate lm gen rounds pid cid did = .ok tr →
        ∀ t ∈ tr.turns, t.content ≠ "" ∧
          ∃ k, k < maxAttempts ∧ t.content = _strip_end_marker (gen t.index k)) ∧
    (∀ (lm : String → Bool) (gen : Nat → Nat → String) idx rc rest pid cid,
        (∀ k, k < maxAttempts → validateAttempt lm (gen idx k) = none ∨
          validateAttempt lm (gen idx k) = some "") →
        runRounds lm gen pid cid (rc :: rest) idx =
          .error ⟨speakerId pid cid rc.speaker, rc.stage, rc.speaker⟩) := by
  constructor
  · intro lm gen rounds pid cid did tr h
    unfold run_debate at h
    cases hr : runRounds lm gen pid cid rounds 0 with
    | error e => rw [hr] at h; cases h
    | ok turns =>
      rw [hr] at h
      simp only [bind, Except.bind] at h
      cases h
      exact runRounds_ok_content lm gen pid cid rounds 0 turns hr
  · intro lm gen idx rc rest pid cid hall
    simp only [runRounds]
    cases hl : attemptLoop lm (gen idx) 0 maxAttempts with
    | none => rfl
    | some content =>
      obtain ⟨k, _, hk2, hk3⟩ := attemptLoop_some lm (gen idx) maxAttempts 0 content hl
      rcases hall k (by omega) with hnone | hempty
      · rw [hnone] at hk3; cases hk3
      · rw [hempty] at hk3
        cases hk3
        rfl

/-- Witness for C3: the well-formed reply yields a single non-empty,
stripped turn, and the always-empty adapter makes the round raise. -/
theorem run_debate_content_policy_witness :
    (("Hi" : String) ≠ "" ∧
      ∃ k, k < maxAttempts ∧ ("Hi" : String) = _strip_end_marker (politeGen 0 k)) ∧
    runRounds metaOff emptyGen "m_pro" "m_con" oneRound 0 =
      .error ⟨"m_pro", "opening", .pro⟩ := by
  constructor
  · have h := (run_debate_content_policy.1 metaOff politeGen oneRound "m_pro" "m_con" "d0"
      ⟨"d0", "m_pro", "m_con", [⟨0, .pro, "opening", "Hi"⟩]⟩ rfl)
      ⟨0, .pro, "opening", "Hi"⟩ (by simp)
    simpa using h
  · exact run_debate_content_policy.2 metaOff emptyGen 0 ⟨.pro, "opening", 4096⟩ []
      "m_pro" "m_con" (fun k _ => Or.inl rfl)

/-! ## C1: panel size -/

unseal List.merge List.mergeSort in
/-- C1 counterexample: with requested panel size 0 and one succeeding
candidate, `run_judge_panel` returns normally with one `JudgeResult` — the
length check sits at the end of the loop body, after the append — so the
returned list is longer than `expected`. -/
theorem run_judge_panel_zero_counterexample :
    (run_judge_panel [goodAdapter] 0 none false rng0).toOption.map
        (fun out => out.1.length) = some 1 ∧ (1 : Nat) ≠ 0 :=
  ⟨rfl, by decide⟩

/-- The candidate loop never grows past `expected` once it starts below
it. -/
theorem panelGo_length_le (expected : Nat) :
    ∀ (queue : List JudgeAdapter) tried acc usage, acc.length < expected →
      (panelGo expected queue tried acc usage).1.length ≤ expected := by
  intro queue
  induction queue with
  | nil => intro tried acc usage h; simpa [panelGo] using Nat.le_of_lt h
  | cons a rest ih =>
    intro tried acc usage h
    by_cases hmem : a.id ∈ tried
    · simpa [panelGo, hmem] using ih tried acc usage h
    · cases hj : run_single_judge a with
      | none => simpa [panelGo, hmem, hj] using ih (a.id :: tried) acc usage h
      | some r =>
        by_cases hbreak : expected ≤ (acc ++ [r]).length
        · simp only [panelGo, if_neg hmem, hj, if_pos hbreak]
          simp only [List.length_append, List.length_singleton]
          omega
        · simp only [panelGo, if_neg hmem, hj, if_neg hbreak]
          exact ih (a.id :: tried) (acc ++ [r]) _ (by omega)

/-- C1 amended: for every requested panel size of at least one, a normal
return of `run_judge_panel` carries exactly `expected` results, and a pool
that cannot supply that many raises instead (for `expected = 0` a
succeeding candidate still yields a panel of one, per the
counterexample). -/
theorem run_judge_panel_size (candidates : List JudgeAdapter) (expected : Nat)
    (usage : Option (List (String × Nat))) (seeded : Bool) (rng : Nat → ℚ)
    (hexp : 1 ≤ expected) :
    ∀ out, run_judge_panel candidates expected usage seeded rng = .ok out →
      out.1.length = expected := by
  intro out h
  unfold run_judge_panel at h
  dsimp only at h
  by_cases hlt :
      (panelGo expected (panelQueue candidates usage seeded rng) [] [] usage).1.length < expected
  · rw [if_pos hlt] at h; cases h
  · rw [if_neg hlt] at h
    cases h
    have hle := panelGo_length_le expected (panelQueue candidates usage seeded rng)
      [] [] usage (by simpa using hexp)
    exact Nat.le_antisymm hle (Nat.not_lt.1 hlt)

unseal List.merge List.mergeSort in
/-- Witness for C1: two available candidates, panel size two, exact
panel. -/
theorem run_judge_panel_size_witness :
    (match run_judge_panel [goodAdapter, goodAdapter2] 2 none false rng0 with
     | .ok out => out.1.length = 2
     | .error _ => False) := by
  cases hrun : run_judge_panel [goodAdapter, goodAdapter2] 2 none false rng0 with
  | ok out => exact run_judge_panel_size _ _ _ _ _ (by decide) out hrun
  | error e =>
    have hok : (run_judge_panel [goodAdapter, goodAdapter2] 2 none false rng0).toOption.isSome
        = true := rfl
    rw [hrun] at hok
    exact Bool.noConfusion hok

/-! ## C10: panels never repeat a judge id -/

/-- `run_single_judge` stamps the adapter's own id on its result. -/
theorem run_single_judge_id (a : JudgeAdapter) (r : JudgeResult)
    (h : run_single_judge a = some r) : r.judge_id = a.id := by
  unfold run_single_judge at h
  cases hp : a.parsed with
  | none => rw [hp] at h; cases h
  | some pc =>
    rw [hp] at h
    dsimp only at h
    split_ifs at h with hInner
    all_goals cases h
    all_goals rfl

/-- The candidate loop preserves distinctness of collected judge ids: every
collected id is already in `tried`, and a candidate whose id was tried is
skipped. -/
theorem panelGo_nodup (expected : Nat) :
    ∀ (queue : List JudgeAdapter) tried acc usage,
      (∀ r ∈ acc, r.judge_id ∈ tried) →
      (acc.map JudgeResult.judge_id).Nodup →
      ((panelGo expected queue tried acc usage).1.map JudgeResult.judge_id).Nodup := by
  intro queue
  induction queue with
  | nil => intro tried acc usage _ hnd; simpa [panelGo] using hnd
  | cons a rest ih =>
    intro tried acc usage hsub hnd
    by_cases hmem : a.id ∈ tried
    · simpa [panelGo, hmem] using ih tried acc usage hsub hnd
    · cases hj : run_single_judge a with
      | none =>
        simp only [panelGo, if_neg hmem, hj]
        exact ih (a.id :: tried) acc usage
          (fun r hr => List.mem_cons_of_mem _ (hsub r hr)) hnd
      | some r =>
        have hid := run_single_judge_id a r hj
        have hnotin : r.judge_id ∉ acc.map JudgeResult.judge_id := by
          intro hin
          obtain ⟨r', hr', he⟩ := List.mem_map.1 hin
          exact hmem (hid ▸ he ▸ hsub r' hr')
        have hnd' : ((acc ++ [r]).map JudgeResult.judge_id).Nodup := by
          rw [List.map_append]
          exact List.nodup_append.2
            ⟨hnd, List.nodup_singleton _, by simpa [List.Disjoint] using hnotin⟩
        by_cases hbreak : expected ≤ (acc ++ [r]).length
        · simp only [panelGo, if_neg hmem, hj, if_pos hbreak]
          exact hnd'
        · simp only [panelGo, if_neg hmem, hj, if_neg hbreak]
          refine ih (a.id :: tried) (acc ++ [r]) _ ?_ hnd'
          intro r' hr'
          rcases List.mem_append.1 hr' with hl | hr1
          · exact List.mem_cons_of_mem _ (hsub r' hl)
          · simp only [List.mem_singleton] at hr1
            subst hr1
            exact hid ▸ List.mem_cons_self _ _

/-- C10: every panel returned normally by `run_judge_panel` has
pairwise-distinct judge ids — the `tried` set admits each candidate id at
most once. -/
theorem run_judge_panel_distinct (candidates : List JudgeAdapter)
    (expected : Nat) (usage : Option (List (String × Nat))) (seeded : Bool)
    (rng : Nat → ℚ) :
    ∀ out, run_judge_panel candidates expected usage seeded rng = .ok out →
      (out.1.map JudgeResult.judge_id).Nodup := by
  intro out h
  unfold run_judge_panel at h
  dsimp only at h
  by_cases hlt :
      (panelGo expected (panelQueue candidates usage seeded rng) [] [] usage).1.length < expected
  · rw [if_pos hlt] at h; cases h
  · rw [if_neg hlt] at h
    cases h
    exact panelGo_nodup expected (panelQueue candidates usage seeded rng) [] [] usage
      (by simp) (by simp)

unseal List.merge List.mergeSort in
/-- Witness for C10: a two-judge panel with distinct ids. -/
theorem run_judge_panel_distinct_witness :
    (match run_judge_panel [goodAdapter, goodAdapter2] 2 none false rng0 with
     | .ok out => (out.1.map JudgeResult.judge_id).Nodup
     | .error _ => False) := by
  cases hrun : run_judge_panel [goodAdapter, goodAdapter2] 2 none false rng0 with
  | ok out => exact run_judge_panel_distinct _ _ _ _ _ out hrun
  | error e =>
    have hok : (run_judge_panel [goodAdapter, goodAdapter2] 2 none false rng0).toOption.isSome
        = true := rfl
    rw [hrun] at hok
    exact Bool.noConfusion hok

/-! ## C4: parsed judge scores are complete and in range -/

/-- The sequential clamp lands in `[scale_min, scale_max]` whenever the
bounds are ordered. -/
theorem clampSeq_bounds (mn mx v : Int) (h : mn ≤ mx) :
    mn ≤ clampSeq mn mx v ∧ clampSeq mn mx v ≤ mx := by
  simp only [clampSeq]
  split_ifs <;> omega

/-- A successful `normalize_side` covers exactly the configured dimensions,
keeps every value clamped, and found every dimension in the payload. -/
theorem normalize_side_ok (pf : String → Option ℚ) (m : List (String × PyVal)) :
    ∀ dims mn mx out, normalize_side pf m dims mn mx = .ok out →
      out.map Prod.fst = dims ∧
      (mn ≤ mx → ∀ p ∈ out, mn ≤ p.2 ∧ p.2 ≤ mx) ∧
      (∀ d ∈ dims, ((findScore m d).getD .vNone).isNone = false) := by
  intro dims
  induction dims with
  | nil =>
    intro mn mx out h
    simp only [normalize_side] at h
    cases h
    simp
  | cons dim rest ih =>
    intro mn mx out h
    simp only [normalize_side] at h
    by_cases hn : ((findScore m dim).getD .vNone).isNone
    · rw [if_pos hn] at h; cases h
    · rw [if_neg hn] at h
      cases hr : normalize_side pf m rest mn mx with
      | error e => rw [hr] at h; cases h
      | ok out' =>
        rw [hr] at h
        simp only [bind, Except.bind] at h
        cases h
        obtain ⟨ih1, ih2, ih3⟩ := ih mn mx out' hr
        refine ⟨by simp [ih1], ?_, ?_⟩
        · intro hmm p hp
          rcases List.mem_cons.1 hp with rfl | hp'
          · exact clampSeq_bounds mn mx _ hmm
          · exact ih2 hmm p hp'
        · intro d hd
          rcases List.mem_cons.1 hd with rfl | hd'
          · simpa using hn
          · exact ih3 d hd'

/-- C4: every payload accepted by `_parse_json_scores` yields score maps
covering exactly the configured dimension ids with every value clamped into
`[scale_min, scale_max]`; and a side dict in which some required dimension
resolves to `None` is rejected by `normalize_side`, never backfilled. -/
theorem _parse_json_scores_validated :
    (∀ (pf : String → Option ℚ) (payload : PyVal) dims mn mx pout cout,
        mn ≤ mx →
        _parse_json_scores pf payload dims mn mx = .ok (pout, cout) →
        pout.map Prod.fst = dims ∧ cout.map Prod.fst = dims ∧
        (∀ p ∈ pout, mn ≤ p.2 ∧ p.2 ≤ mx) ∧
        (∀ p ∈ cout, mn ≤ p.2 ∧ p.2 ≤ mx)) ∧
    (∀ (pf : String → Option ℚ) (m : List (String × PyVal)) dims mn mx d,
        d ∈ dims → ((findScore m d).getD .vNone).isNone = true →
        ∀ out, normalize_side pf m dims mn mx ≠ .ok out) := by
  constructor
  · intro pf payload dims mn mx pout cout hmm h
    cases payload <;> simp only [_parse_json_scores] at h <;> try cases h
    case vDict m =>
    cases ha : pyAttrGet (pyOr (dGet m "scores") (.vDict [])) "pro" with
    | error e => rw [ha] at h; simp only [bind, Except.bind] at h; cases h
    | ok sPro =>
      rw [ha] at h
      simp only [bind, Except.bind] at h
      cases hb : pyAttrGet (pyOr (dGet m "scores") (.vDict [])) "con" with
      | error e => rw [hb] at h; simp only [Except.bind] at h; cases h
      | ok sCon =>
        rw [hb] at h
        simp only [Except.bind] at h
        cases hp : pyOr sPro (dGet m "pro") <;> rw [hp] at h <;> try cases h
        case vDict pm =>
        cases hq : pyOr sCon (dGet m "con") <;> rw [hq] at h <;> try cases h
        case vDict cm =>
        dsimp only at h
        cases hn1 : normalize_side pf pm dims mn mx with
        | error e => rw [hn1] at h; simp only [Except.bind] at h; cases h
        | ok p =>
          rw [hn1] at h
          simp only [Except.bind] at h
          cases hn2 : normalize_side pf cm dims mn mx with
          | error e => rw [hn2] at h; simp only [Except.bind] at h; cases h
          | ok c =>
            rw [hn2] at h
            simp only [Except.bind] at h
            cases h
            obtain ⟨p1, p2, _⟩ := normalize_side_ok pf pm dims mn mx pout hn1
            obtain ⟨c1, c2, _⟩ := normalize_side_ok pf cm dims mn mx cout hn2
            exact ⟨p1, c1, p2 hmm, c2 hmm⟩
  · intro pf m dims mn mx d hd hnone
    induction dims with
    | nil => simp at hd
    | cons dim rest ih =>
      intro out h
      simp only [normalize_side] at h
      rcases List.mem_cons.1 hd with rfl | hd'
      · rw [if_pos hnone] at h; cases h
      · by_cases hn : ((findScore m dim).getD .vNone).isNone
        · rw [if_pos hn] at h; cases h
        · rw [if_neg hn] at h
          cases hr : normalize_side pf m rest mn mx with
          | error e => rw [hr] at h; simp only [bind, Except.bind] at h; cases h
          | ok out' => exact ih hd' out' hr

/-- Witness for C4 at a concrete payload (exact and case-variant keys, a
string score, an out-of-range score) and a concrete missing-dimension
side. -/
theorem _parse_json_scores_validated_witness :
    (match _parse_json_scores pf0 payload0 ["logic", "style"] 1 10 with
     | .ok (pout, cout) =>
        pout.map Prod.fst = ["logic", "style"] ∧
        (∀ p ∈ pout, 1 ≤ p.2 ∧ p.2 ≤ 10) ∧ (∀ p ∈ cout, 1 ≤ p.2 ∧ p.2 ≤ 10)
     | .error _ => False) ∧
    normalize_side pf0 [("logic", PyVal.vInt 7)] ["logic", "style"] 1 10 ≠
      .ok [("logic", 7), ("style", 1)] := by
  constructor
  · cases hrun : _parse_json_scores pf0 payload0 ["logic", "style"] 1 10 with
    | ok pc =>
      obtain ⟨pout, cout⟩ := pc
      have h := _parse_json_scores_validated.1 pf0 payload0 ["logic", "style"]
        1 10 pout cout (by decide) hrun
      exact ⟨h.1, h.2.2.1, h.2.2.2⟩
    | error e =>
      have hok : (_parse_json_scores pf0 payload0 ["logic", "style"] 1 10).toOption.isSome
          = true := rfl
      rw [hrun] at hok
      exact Bool.noConfusion hok
  · exact _parse_json_scores_validated.2 pf0 [("logic", PyVal.vInt 7)]
      ["logic", "style"] 1 10 "style" (by simp) rfl [("logic", 7), ("style", 1)]

/-! ## C9: per-dimension means divide by the full panel size -/

/-- Lookup in an association list built by pairing each key of `l` with
`f` of that key. -/
theorem lookup_map_pair (f : String → ℚ) :
    ∀ (l : List String) (d : String),
      (l.map (fun x => (x, f x))).lookup d = if d ∈ l then some (f d) else none := by
  intro l
  induction l with
  | nil => intro d; simp
  | cons a rest ih =>
    intro d
    by_cases hda : d = a
    · subst hda
      simp [List.lookup]
    · have hb : (d == a) = false := by simpa using hda
      simp only [List.map_cons, List.lookup, hb]
      rw [ih d]
      simp [List.mem_cons, hda]

/-- C9: `aggregate_panel` defines a mean for exactly the union of all
dimension ids reported by any judge on either side, and that mean is the
panel-wide total — a judge that did not report the dimension contributing
`0` — divided by the full panel size. -/
theorem aggregate_panel_mean_semantics (results : List JudgeResult)
    (hne : results ≠ []) (d : String) :
    (d ∈ dimKeys results ↔
      ∃ r ∈ results, d ∈ r.pro.map Prod.fst ∨ d ∈ r.con.map Prod.fst) ∧
    ((aggregate_panel results).mean_pro.lookup d =
      if d ∈ dimKeys results then
        some ((((results.map (fun r => scoreGet r.pro d)).sum : Int) : ℚ) /
          (results.length : ℚ))
      else none) ∧
    ((aggregate_panel results).mean_con.lookup d =
      if d ∈ dimKeys results then
        some ((((results.map (fun r => scoreGet r.con d)).sum : Int) : ℚ) /
          (results.length : ℚ))
      else none) := by
  refine ⟨?_, ?_, ?_⟩
  · simp [dimKeys, List.mem_dedup, List.mem_flatMap, List.mem_append]
  · simpa only [aggregate_panel, meanScore] using
      lookup_map_pair (fun x => meanScore results (fun r => r.pro) x) (dimKeys results) d
  · simpa only [aggregate_panel, meanScore] using
      lookup_map_pair (fun x => meanScore results (fun r => r.con) x) (dimKeys results) d

/-- Witness for C9: the partially-reported dimension `style` (scored 7 by
one of two judges) has pro mean `7 / 2`, dragged toward zero rather than
averaged over the single reporting judge. -/
theorem aggregate_panel_mean_semantics_witness :
    (aggregate_panel [jProA, jProB]).mean_pro.lookup "style" = some (7 / 2) := by
  have h := (aggregate_panel_mean_semantics [jProA, jProB] (by simp) "style").2.1
  rw [h, if_pos (by decide)]
  norm_num [jProA, jProB, scoreGet, List.lookup,
    show ("style" == "logic") = false from rfl]

/-! ## C7: rating recomputation is order-insensitive on distinct keys -/

/-- `recordLe` is total. -/
theorem recordLe_total (a b : DebateRecord) :
    (recordLe a b || recordLe b a) = true := by
  simp only [recordLe, Bool.or_eq_true, Bool.and_eq_true, decide_eq_true_iff]
  rcases lt_trichotomy a.created_at b.created_at with h | h | h
  · exact Or.inl (Or.inl h)
  · rcases le_total a.transcript.debate_id b.transcript.debate_id with hs | hs
    · exact Or.inl (Or.inr ⟨h, hs⟩)
    · exact Or.inr (Or.inr ⟨h.symm, hs⟩)
  · exact Or.inr (Or.inl h)

/-- `recordLe` is transitive. -/
theorem recordLe_trans (a b c : DebateRecord) :
    recordLe a b = true → recordLe b c = true → recordLe a c = true := by
  simp only [recordLe, Bool.or_eq_true, Bool.and_eq_true, decide_eq_true_iff]
  rintro (h1 | ⟨h1, h1s⟩) (h2 | ⟨h2, h2s⟩)
  · exact Or.inl (lt_trans h1 h2)
  · exact Or.inl (lt_of_lt_of_le h1 (le_of_eq h2))
  · exact Or.inl (lt_of_le_of_lt (le_of_eq h1) h2)
  · exact Or.inr ⟨h1.trans h2, le_trans h1s h2s⟩

/-- Mutually `recordLe`-comparable records share their sort key. -/
theorem recordLe_key_eq (a b : DebateRecord) :
    recordLe a b = true → recordLe b a = true → recordKey a = recordKey b := by
  simp only [recordLe, Bool.or_eq_true, Bool.and_eq_true, decide_eq_true_iff]
  rintro (h1 | ⟨h1, h1s⟩) (h2 | ⟨h2, h2s⟩)
  · exact absurd h2 (lt_asymm h1)
  · exact absurd (h2 ▸ h1) (lt_irrefl _)
  · exact absurd (h1 ▸ h2) (lt_irrefl _)
  · simp only [recordKey, Prod.mk.injEq]
    exact ⟨h1, le_antisymm h1s h2s⟩

/-- Two sorted lists that are permutations of each other and have pairwise
distinct keys coincide. -/
theorem sorted_perm_nodupkeys_eq {α κ : Type} (key : α → κ)
    (le : α → α → Bool)
    (hk : ∀ a b, le a b = true → le b a = true → key a = key b) :
    ∀ (P Q : List α), P.Perm Q →
      P.Pairwise (fun x y => le x y = true) →
      Q.Pairwise (fun x y => le x y = true) →
      (P.map key).Nodup → P = Q := by
  intro P
  induction P with
  | nil =>
    intro Q hperm _ _ _
    exact (hperm.symm.eq_nil).symm
  | cons a P' ih =>
    intro Q hperm hP hQ hnd
    cases Q with
    | nil => exact absurd hperm.eq_nil (by simp)
    | cons b Q' =>
      simp only [List.map_cons, List.nodup_cons] at hnd
      have hab : a = b := by
        by_contra hne
        have haQ' : a ∈ Q' := by
          rcases List.mem_cons.1 (hperm.mem_iff.1 (List.mem_cons_self a P')) with h | h
          · exact absurd h hne
          · exact h
        have hbP' : b ∈ P' := by
          rcases List.mem_cons.1 (hperm.symm.mem_iff.1 (List.mem_cons_self b Q')) with h | h
          · exact absurd h.symm hne
          · exact h
        have hba : le b a = true := (List.pairwise_cons.1 hQ).1 a haQ'
        have hab' : le a b = true := (List.pairwise_cons.1 hP).1 b hbP'
        exact hnd.1 ((hk a b hab' hba) ▸ List.mem_map_of_mem key hbP')
      subst hab
      rw [ih Q' hperm.cons_inv (List.pairwise_cons.1 hP).2
        (List.pairwise_cons.1 hQ).2 hnd.2]

/-- Sorting by `recordLe` erases any permutation of records with pairwise
distinct `(created_at, debate_id)` keys. -/
theorem mergeSort_recordLe_eq (xs ys : List DebateRecord) (hperm : xs.Perm ys)
    (hnd : (xs.map recordKey).Nodup) :
    xs.mergeSort recordLe = ys.mergeSort recordLe := by
  refine sorted_perm_nodupkeys_eq recordKey recordLe recordLe_key_eq _ _
    ((List.mergeSort_perm xs recordLe).trans
      (hperm.trans (List.mergeSort_perm ys recordLe).symm))
    (List.sorted_mergeSort (fun a b c => recordLe_trans a b c)
      (fun a b => recordLe_total a b) xs)
    (List.sorted_mergeSort (fun a b c => recordLe_trans a b c)
      (fun a b => recordLe_total a b) ys)
    (((List.mergeSort_perm xs recordLe).map recordKey).symm.nodup hnd)

/-- C7: `recompute_ratings` is a deterministic rebuild from history — two
record lists with the same members (in any order) and pairwise-distinct
`(created_at, debate_id)` keys produce identical `RatingsFile`s, because
the replay sorts by that key before folding. -/
theorem recompute_ratings_perm_invariant (xs ys : List DebateRecord)
    (bench rubric : String) (cfg : EloConfig) (hperm : xs.Perm ys)
    (hnd : (xs.map recordKey).Nodup) :
    recompute_ratings xs bench rubric cfg = recompute_ratings ys bench rubric cfg := by
  unfold recompute_ratings
  rw [mergeSort_recordLe_eq xs ys hperm hnd]

/-- Witness for C7: swapping two concrete records with distinct keys leaves
the recomputed ratings table unchanged. -/
theorem recompute_ratings_perm_invariant_witness :
    recompute_ratings [recA, recB] "v0" "r0" elo0 =
      recompute_ratings [recB, recA] "v0" "r0" elo0 :=
  recompute_ratings_perm_invariant [recA, recB] [recB, recA] "v0" "r0" elo0
    (List.Perm.swap recB recA []) (by decide)

/-! ## C8: rate limiter window bound -/

/-- C8 counterexample: a limiter built for 4 requests per minute grants 7
acquisitions inside the single 60-second window starting at time 0 — the
full-bucket burst plus the continuous refill — exceeding the claimed
ceiling even with one token of tolerance. -/
theorem rate_limiter_claim_counterexample :
    grantsIn 0 (limiterRun 4 0 [0, 0, 0, 0, 15, 30, 45]) = 7 ∧
    ¬((7 : Nat) ≤ 4 + 1) := by
  have h1 : tryStep 4 (1 / 15) ⟨4, 0⟩ 0 = (⟨3, 0⟩, true) := by
    simp only [tryStep, refill]; norm_num
  have h2 : tryStep 4 (1 / 15) ⟨3, 0⟩ 0 = (⟨2, 0⟩, true) := by
    simp only [tryStep, refill]; norm_num
  have h3 : tryStep 4 (1 / 15) ⟨2, 0⟩ 0 = (⟨1, 0⟩, true) := by
    simp only [tryStep, refill]; norm_num
  have h4 : tryStep 4 (1 / 15) ⟨1, 0⟩ 0 = (⟨0, 0⟩, true) := by
    simp only [tryStep, refill]; norm_num
  have h5 : tryStep 4 (1 / 15) ⟨0, 0⟩ 15 = (⟨0, 15⟩, true) := by
    simp only [tryStep, refill]; norm_num [min_def]
  have h6 : tryStep 4 (1 / 15) ⟨0, 15⟩ 30 = (⟨0, 30⟩, true) := by
    simp only [tryStep, refill]; norm_num [min_def]
  have h7 : tryStep 4 (1 / 15) ⟨0, 30⟩ 45 = (⟨0, 45⟩, true) := by
    simp only [tryStep, refill]; norm_num [min_def]
  have hc : capQ 4 = 4 := rfl
  have hr : (4 : ℚ) / 60 = 1 / 15 := by norm_num
  have hrun : limiterRun 4 0 [0, 0, 0, 0, 15, 30, 45] =
      [(0, true), (0, true), (0, true), (0, true),
       (15, true), (30, true), (45, true)] := by
    simp only [limiterRun, hc, hr, runTrace, h1, h2, h3, h4, h5, h6, h7]
  rw [hrun]
  refine ⟨?_, by omega⟩
  norm_num [grantsIn, List.filter]

/-- Running an appended trace splits into two runs. -/
theorem runTrace_append (cap rate : ℚ) :
    ∀ (A B : List ℚ) (s : LimiterState),
      runTrace cap rate s (A ++ B) =
        ((runTrace cap rate s A).1 ++
          (runTrace cap rate (runTrace cap rate s A).2 B).1,
         (runTrace cap rate (runTrace cap rate s A).2 B).2) := by
  intro A
  induction A with
  | nil => intro B s; simp [runTrace]
  | cons t ts ih =>
    intro B s
    simp only [List.cons_append, runTrace, List.append_eq]
    rw [ih B (tryStep cap rate s t).1]

/-- Event timestamps of a run are exactly the input timestamps. -/
theorem runTrace_map_fst (cap rate : ℚ) :
    ∀ (ts : List ℚ) (s : LimiterState),
      ((runTrace cap rate s ts).1.map Prod.fst) = ts := by
  intro ts
  induction ts with
  | nil => intro s; simp [runTrace]
  | cons t ts ih => intro s; simp only [runTrace, List.map_cons]; rw [ih]

/-- One iteration keeps the token count at or below capacity. -/
theorem tryStep_tokens_le (cap rate : ℚ) (s : LimiterState) (t : ℚ)
    (h : s.tokens ≤ cap) : (tryStep cap rate s t).1.tokens ≤ cap := by
  simp only [tryStep, refill]
  split_ifs <;> simp_all <;> linarith [min_le_left cap (s.tokens + (t - s.updated) * rate)]

/-- One iteration keeps the token count nonnegative. -/
theorem tryStep_tokens_nonneg (cap rate : ℚ) (s : LimiterState) (t : ℚ)
    (hcap : 0 ≤ cap) (hrate : 0 ≤ rate) (h : 0 ≤ s.tokens) :
    0 ≤ (tryStep cap rate s t).1.tokens := by
  by_cases h1 : 0 < t - s.updated
  · by_cases h2 : (1 : ℚ) ≤ min cap (s.tokens + (t - s.updated) * rate)
    · simp only [tryStep, refill, if_pos h1, if_pos h2]
      linarith
    · simp only [tryStep, refill, if_pos h1, if_neg h2]
      have hp : 0 ≤ (t - s.updated) * rate := mul_nonneg (le_of_lt h1) hrate
      exact le_min hcap (by linarith)
  · by_cases h2 : (1 : ℚ) ≤ s.tokens
    · simp only [tryStep, refill, if_neg h1, if_pos h2]
      linarith
    · simp only [tryStep, refill, if_neg h1, if_neg h2]
      exact h

/-- A run keeps the token count at or below capacity. -/
theorem runTrace_tokens_le (cap rate : ℚ) :
    ∀ (ts : List ℚ) (s : LimiterState), s.tokens ≤ cap →
      (runTrace cap rate s ts).2.tokens ≤ cap := by
  intro ts
  induction ts with
  | nil => intro s h; simpa [runTrace] using h
  | cons t ts ih =>
    intro s h
    simp only [runTrace]
    exact ih _ (tryStep_tokens_le cap rate s t h)

/-- A run keeps the token count nonnegative. -/
theorem runTrace_tokens_nonneg (cap rate : ℚ) (hcap : 0 ≤ cap) (hrate : 0 ≤ rate) :
    ∀ (ts : List ℚ) (s : LimiterState), 0 ≤ s.tokens →
      0 ≤ (runTrace cap rate s ts).2.tokens := by
  intro ts
  induction ts with
  | nil => intro s h; simpa [runTrace] using h
  | cons t ts ih =>
    intro s h
    simp only [runTrace]
    exact ih _ (tryStep_tokens_nonneg cap rate s t hcap hrate h)

/-- The final `updated` timestamp is the initial one or an event time. -/
theorem runTrace_updated (cap rate : ℚ) :
    ∀ (ts : List ℚ) (s : LimiterState),
      (runTrace cap rate s ts).2.updated = s.updated ∨
        (runTrace cap rate s ts).2.updated ∈ ts := by
  intro ts
  induction ts with
  | nil => intro s; simp [runTrace]
  | cons t ts ih =>
    intro s
    simp only [runTrace]
    rcases ih (tryStep cap rate s t).1 with h | h
    · rw [h]
      simp only [tryStep, refill]
      split_ifs <;> simp_all
    · exact Or.inr (List.mem_cons_of_mem t h)

/-- Counting grants of a cons. -/
theorem grantsCount_cons (t : ℚ) (g : Bool) (evs : List (ℚ × Bool)) :
    grantsCount ((t, g) :: evs) = (if g then 1 else 0) + grantsCount evs := by
  cases g <;> simp [grantsCount, List.filter] <;> omega

/-- The potential `tokens - rate * updated` pays for every grant: one
iteration can only lower it, by at least 1 when it grants. -/
theorem tryStep_potential (cap rate : ℚ) (hrate : 0 ≤ rate) (s : LimiterState)
    (t : ℚ) :
    (tryStep cap rate s t).1.tokens - rate * (tryStep cap rate s t).1.updated +
      (if (tryStep cap rate s t).2 then (1 : ℚ) else 0) ≤
      s.tokens - rate * s.updated := by
  have hexp : (t - s.updated) * rate = rate * t - rate * s.updated := by ring
  by_cases h1 : 0 < t - s.updated
  · have hmin := min_le_right cap (s.tokens + (t - s.updated) * rate)
    by_cases h2 : (1 : ℚ) ≤ min cap (s.tokens + (t - s.updated) * rate)
    · simp only [tryStep, refill, if_pos h1, if_pos h2, if_true]
      linarith
    · simp only [tryStep, refill, if_pos h1, if_neg h2]
      simp only [Bool.false_eq_true, if_false]
      linarith
  · by_cases h2 : (1 : ℚ) ≤ s.tokens
    · simp only [tryStep, refill, if_neg h1, if_pos h2, if_true]
      linarith
    · simp only [tryStep, refill, if_neg h1, if_neg h2]
      simp only [Bool.false_eq_true, if_false]
      linarith

/-- Budget bound: grants in a run are paid for by the drop in potential. -/
theorem runTrace_budget (cap rate : ℚ) (hrate : 0 ≤ rate) :
    ∀ (ts : List ℚ) (s : LimiterState),
      (grantsCount (runTrace cap rate s ts).1 : ℚ) ≤
        (s.tokens - rate * s.updated) -
        ((runTrace cap rate s ts).2.tokens -
          rate * (runTrace cap rate s ts).2.updated) := by
  intro ts
  induction ts with
  | nil => intro s; simp [runTrace, grantsCount]
  | cons t ts ih =>
    intro s
    have hstep := tryStep_potential cap rate hrate s t
    have htail := ih (tryStep cap rate s t).1
    simp only [runTrace, grantsCount_cons]
    cases hg : (tryStep cap rate s t).2
    · rw [hg] at hstep
      simp only [Bool.false_eq_true, if_false] at hstep ⊢
      push_cast
      linarith
    · rw [hg] at hstep
      simp only [eq_self_iff_true, if_true] at hstep ⊢
      push_cast
      linarith

/-- Min-capped continuous refill composes: refilling at an intermediate
instant changes nothing. -/
theorem refill_refill (cap rate : ℚ) (hrate : 0 ≤ rate) (s : LimiterState)
    (t1 t2 : ℚ) (h1 : s.updated ≤ t1) (h2 : t1 ≤ t2) :
    refill cap rate (refill cap rate s t1) t2 = refill cap rate s t2 := by
  by_cases ha : 0 < t1 - s.updated
  · by_cases hb : 0 < t2 - t1
    · have hc : 0 < t2 - s.updated := by linarith
      simp only [refill, if_pos ha, if_pos hb, if_pos hc]
      have hone : (0 : ℚ) ≤ (t2 - t1) * rate := mul_nonneg (by linarith) hrate
      congr 1
      rcases le_total (s.tokens + (t1 - s.updated) * rate) cap with hle | hle
      · rw [min_eq_right hle]
        congr 1
        ring
      · rw [min_eq_left hle]
        rw [min_eq_left (by linarith), min_eq_left (by nlinarith)]
    · have hbt : t2 = t1 := by linarith
      subst hbt
      simp only [refill, if_pos ha]
      rw [if_neg (by simp)]
  · have hat : t1 = s.updated := by linarith
    simp only [refill, if_neg ha]

/-- Refilling at a later instant stamps that instant. -/
theorem refill_updated (cap rate : ℚ) (s : LimiterState) (T : ℚ)
    (h : s.updated ≤ T) : (refill cap rate s T).updated = T := by
  simp only [refill]
  split_ifs with h1
  · rfl
  · have : s.updated = T := by linarith
    simpa using this

/-- Refilling keeps the token count at or below capacity. -/
theorem refill_tokens_le (cap rate : ℚ) (s : LimiterState) (T : ℚ)
    (h : s.tokens ≤ cap) : (refill cap rate s T).tokens ≤ cap := by
  simp only [refill]
  split_ifs
  · exact min_le_left _ _
  · exact h

/-- Refilling keeps the token count nonnegative. -/
theorem refill_tokens_nonneg (cap rate : ℚ) (s : LimiterState) (T : ℚ)
    (hcap : 0 ≤ cap) (hrate : 0 ≤ rate) (h : 0 ≤ s.tokens) :
    0 ≤ (refill cap rate s T).tokens := by
  simp only [refill]
  split_ifs with h1
  · exact le_min hcap (by nlinarith)
  · exact h

/-- A virtual refill at the window start changes nothing about a run whose
events all lie at or after it. -/
theorem runTrace_refill_front (cap rate : ℚ) (hrate : 0 ≤ rate) :
    ∀ (B : List ℚ) (s : LimiterState) (T : ℚ), s.updated ≤ T →
      (∀ b ∈ B, T ≤ b) →
      (runTrace cap rate (refill cap rate s T) B).1 =
        (runTrace cap rate s B).1 := by
  intro B
  cases B with
  | nil => intro s T _ _; simp [runTrace]
  | cons b rest =>
    intro s T hupd hmem
    have hb : T ≤ b := hmem b (List.mem_cons_self b rest)
    have hstep : tryStep cap rate (refill cap rate s T) b = tryStep cap rate s b := by
      unfold tryStep
      rw [refill_refill cap rate hrate s T b hupd hb]
    simp only [runTrace, hstep]

/-- Filtering by a stronger predicate keeps the count smaller. -/
theorem filterCount_mono {α : Type} (p q : α → Bool)
    (h : ∀ a, p a = true → q a = true) :
    ∀ l : List α, (l.filter p).length ≤ (l.filter q).length := by
  intro l
  induction l with
  | nil => simp
  | cons a rest ih =>
    simp only [List.filter_cons]
    by_cases hp : p a = true
    · rw [if_pos hp, if_pos (h a hp)]
      simpa using ih
    · rw [if_neg hp]
      by_cases hq : q a = true
      · rw [if_pos hq]
        exact le_trans ih (by simp)
      · rw [if_neg hq]
        exact ih

/-- Windowed grants among events entirely outside the window vanish. -/
theorem grantsIn_eq_zero (T : ℚ) (evs : List (ℚ × Bool))
    (h : ∀ e ∈ evs, ¬(T ≤ e.1 ∧ e.1 ≤ T + 60)) : grantsIn T evs = 0 := by
  unfold grantsIn
  simp only [List.length_eq_zero, List.filter_eq_nil]
  intro e he
  have hw := h e he
  simp only [Bool.and_eq_true, decide_eq_true_iff]
  tauto

/-- Windowed grants are at most all grants. -/
theorem grantsIn_le_grantsCount (T : ℚ) (evs : List (ℚ × Bool)) :
    grantsIn T evs ≤ grantsCount evs := by
  refine filterCount_mono _ _ ?_ evs
  intro e he
  simp only [Bool.and_eq_true] at he
  exact he.2

/-- C8 amended: over any 60-second window, a `_RateLimiter(R)` permits at
most twice the bucket capacity `max(1, R)` of acquisitions — the worst case
is a full-bucket burst plus a full minute of refill — rather than the
claimed `R` plus one token of tolerance (see the counterexample, where a
limiter for 4 rpm grants 7 in one window). -/
theorem rate_limiter_window_bound (R : Int) (t0 T : ℚ) (A B C : List ℚ)
    (h0 : t0 ≤ T) (hA : ∀ t ∈ A, t < T) (hB : ∀ t ∈ B, T ≤ t ∧ t ≤ T + 60)
    (hC : ∀ t ∈ C, T + 60 < t) :
    (grantsIn T (limiterRun R t0 (A ++ B ++ C)) : ℚ) ≤ 2 * capQ R := by
  rw [show limiterRun R t0 (A ++ B ++ C) =
    (runTrace (capQ R) (capQ R / 60) ⟨capQ R, t0⟩ (A ++ B ++ C)).1 from rfl]
  set cap := capQ R with hcap_def
  set rate := capQ R / 60 with hrate_def
  have hcap1 : (1 : ℚ) ≤ cap := le_max_left 1 _
  have hcap0 : (0 : ℚ) ≤ cap := by linarith
  have hrate0 : (0 : ℚ) ≤ rate := div_nonneg hcap0 (by norm_num)
  have hrate60 : rate * 60 = cap := by
    rw [hrate_def, hcap_def]
    field_simp
  rw [runTrace_append cap rate (A ++ B) C ⟨cap, t0⟩,
    runTrace_append cap rate A B ⟨cap, t0⟩]
  set sA := (runTrace cap rate ⟨cap, t0⟩ A).2 with hsA_def
  set evsA := (runTrace cap rate ⟨cap, t0⟩ A).1 with hevsA_def
  set evsB := (runTrace cap rate sA B).1 with hevsB_def
  set sB := (runTrace cap rate sA B).2 with hsB_def
  set evsC := (runTrace cap rate sB C).1 with hevsC_def
  have hsplit : grantsIn T ((evsA ++ evsB) ++ evsC) =
      grantsIn T evsA + grantsIn T evsB + grantsIn T evsC := by
    simp only [grantsIn, List.filter_append, List.length_append]
  have hmemA : ∀ e ∈ evsA, e.1 ∈ A := by
    intro e he
    have := List.mem_map_of_mem Prod.fst he
    rwa [hevsA_def, runTrace_map_fst cap rate A ⟨cap, t0⟩] at this
  have hmemB : ∀ e ∈ evsB, e.1 ∈ B := by
    intro e he
    have := List.mem_map_of_mem Prod.fst he
    rwa [hevsB_def, runTrace_map_fst cap rate B sA] at this
  have hmemC : ∀ e ∈ evsC, e.1 ∈ C := by
    intro e he
    have := List.mem_map_of_mem Prod.fst he
    rwa [hevsC_def, runTrace_map_fst cap rate C sB] at this
  have hgA : grantsIn T evsA = 0 := by
    refine grantsIn_eq_zero T evsA ?_
    intro e he hw
    exact absurd (hA e.1 (hmemA e he)) (not_lt.2 hw.1)
  have hgC : grantsIn T evsC = 0 := by
    refine grantsIn_eq_zero T evsC ?_
    intro e he hw
    exact absurd (hC e.1 (hmemC e he)) (not_lt.2 hw.2)
  -- bound the grants inside the window via the potential argument
  have hsA_le : sA.tokens ≤ cap := runTrace_tokens_le cap rate A ⟨cap, t0⟩ le_rfl
  have hsA_nn : 0 ≤ sA.tokens :=
    runTrace_tokens_nonneg cap rate hcap0 hrate0 A ⟨cap, t0⟩ hcap0
  have hsA_upd : sA.updated ≤ T := by
    rcases runTrace_updated cap rate A ⟨cap, t0⟩ with h | h
    · have h2 : sA.updated = t0 := by
        rw [← hsA_def] at h
        exact h
      rw [h2]
      exact h0
    · exact le_of_lt (hA _ h)
  have hfront : (runTrace cap rate (refill cap rate sA T) B).1 = evsB :=
    runTrace_refill_front cap rate hrate0 B sA T hsA_upd (fun b hb => (hB b hb).1)
  set s1 := refill cap rate sA T with hs1_def
  set f := (runTrace cap rate s1 B).2 with hf_def
  have hs1_upd : s1.updated = T := refill_updated cap rate sA T hsA_upd
  have hs1_le : s1.tokens ≤ cap := refill_tokens_le cap rate sA T hsA_le
  have hs1_nn : 0 ≤ s1.tokens :=
    refill_tokens_nonneg cap rate sA T hcap0 hrate0 hsA_nn
  have hf_nn : 0 ≤ f.tokens :=
    runTrace_tokens_nonneg cap rate hcap0 hrate0 B s1 hs1_nn
  have hf_upd : f.updated ≤ T + 60 := by
    rcases runTrace_updated cap rate B s1 with h | h
    · have h2 : f.updated = T := by
        rw [← hf_def] at h
        rw [h, hs1_upd]
      rw [h2]
      linarith
    · exact (hB _ h).2
  have hbudget := runTrace_budget cap rate hrate0 B s1
  rw [hfront] at hbudget
  have hmul : rate * f.updated ≤ rate * (T + 60) :=
    mul_le_mul_of_nonneg_left hf_upd hrate0
  have hring : rate * (T + 60) = rate * T + rate * 60 := by ring
  have hgB : (grantsIn T evsB : ℚ) ≤ 2 * cap := by
    have hle : (grantsIn T evsB : ℚ) ≤ (grantsCount evsB : ℚ) := by
      exact_mod_cast grantsIn_le_grantsCount T evsB
    rw [hs1_upd] at hbudget
    linarith
  rw [hsplit, hgA, hgC]
  push_cast
  linarith

/-- Witness for C8's amended bound at a concrete limiter and window. -/
theorem rate_limiter_window_bound_witness :
    (grantsIn 0 (limiterRun 2 0 (([] : List ℚ) ++ [0, 30] ++ [61])) : ℚ) ≤
      2 * capQ 2 := by
  refine rate_limiter_window_bound 2 0 0 [] [0, 30] [61] le_rfl ?_ ?_ ?_
  · intro t ht
    simp at ht
  · intro t ht
    rcases List.mem_cons.1 ht with rfl | ht'
    · norm_num
    · rcases List.mem_cons.1 ht' with rfl | ht''
      · norm_num
      · simp at ht''
  · intro t ht
    rcases List.mem_cons.1 ht with rfl | ht'
    · norm_num
    · simp at ht'

end DebateBench
